import Mathlib

/-!
Shallow embedding of `src/main.py` — the Duplicator-Spoiler subtraction game.
We embed the `Game` class (construction and `perform_move`) and the
`SpoilerBot` class (the `find_winning_strategy` backward induction and
`pick_smart_move`).  Console and log-file I/O is out of scope and omitted;
positions and moves are plain Python integers, embedded as `ℤ`.
-/

/-- Python `range(a, b)` over integers, as an ascending list. -/
def intRange (a b : ℤ) : List ℤ :=
  (List.range (b - a).toNat).map (fun (k : ℕ) => a + (k : ℤ))

/-- State of one `Game` instance: `next_player` is a player id (`0` =
Duplicator, `1` = Spoiler, toggled mod 2), `winner` is `none` until the game
ends.  The log-file fields of the Python class are I/O and are omitted. -/
structure GameState where
  next_player : ℕ
  winner : Option ℕ
  current_position : ℤ
  initial_position : ℤ
  final_position : ℤ
  max_move : ℤ
deriving DecidableEq

/-- `Game.__init__(day, month, year, initial_position)`:
`final_position = day + month + year`, `max_move = day + month`,
`next_player` starts at the Duplicator, and the only validation is
`assert initial_position >= 1` (a failed assert means no object is
constructed, modelled by `none`). -/
def mkGame (day month year initial_position : ℤ) : Option GameState :=
  if 1 ≤ initial_position then
    some { next_player := 0, winner := none,
           current_position := initial_position,
           initial_position := initial_position,
           final_position := day + month + year,
           max_move := day + month }
  else none

/-- `Game.perform_move(move)`: both asserts run before any state is mutated,
so a raise (modelled by `.error` carrying the state observable at that point)
leaves the state as it was.  On success the position advances; the winner is
set to the mover (`next_player` before the toggle) exactly when the final
position is reached; and `next_player` is toggled unconditionally — the
toggle on source line 162 is outside the `if` that sets the winner. -/
def perform_move (g : GameState) (move : ℤ) : Except GameState GameState :=
  if g.winner ≠ none then .error g
  else if ¬ (1 ≤ move ∧ move ≤ g.max_move ∧
      g.current_position + move ≤ g.final_position) then .error g
  else
    .ok { g with
          current_position := g.current_position + move,
          winner := if g.current_position + move = g.final_position then
              some g.next_player
            else g.winner,
          next_player := (g.next_player + 1) % 2 }

/-- Apply a list of moves in order, stopping at the first illegal one. -/
def applyMoves (g : GameState) : List ℤ → Except GameState GameState
  | [] => .ok g
  | m :: ms =>
    match perform_move g m with
    | .ok g2 => applyMoves g2 ms
    | .error e => .error e

/-- `true` iff `perform_move` raises on this state and move. -/
def moveFailed (g : GameState) (move : ℤ) : Bool :=
  match perform_move g move with
  | .error _ => true
  | .ok _ => false

/-- The state invariant claimed for `Game`. -/
def GameInv (g : GameState) : Prop :=
  g.initial_position ≤ g.current_position ∧
  g.current_position ≤ g.final_position ∧
  (g.winner ≠ none ↔ g.current_position = g.final_position)

/-- Example: a game over the interval `[1, 10]` with `max_move = 2`, one
step away from the final position, Duplicator to move. -/
def gEx : GameState := ⟨0, none, 9, 1, 10, 2⟩

/-- The state `perform_move gEx 1` produces: Duplicator won, and
`next_player` was toggled to the Spoiler anyway. -/
def gExWin : GameState := ⟨1, some 0, 10, 1, 10, 2⟩

/-- Example game start for the `(day, month, year) = (1, 1, 8)` bounds. -/
def gEx0 : GameState := ⟨0, none, 1, 1, 10, 2⟩

/-- The state after playing moves `[2, 2]` from `gEx0`. -/
def gEx2 : GameState := ⟨0, none, 5, 1, 10, 2⟩

/-- The `winning_moves` dict of `SpoilerBot`: its key set together with the
stored lists; `val x = []` whenever `x` is not a key. -/
structure MoveDict where
  keys : Finset ℤ
  val : ℤ → List ℤ

/-- Python `dict.get`: `some` of the stored list for a key, else `none`. -/
def MoveDict.get (d : MoveDict) (x : ℤ) : Option (List ℤ) :=
  if x ∈ d.keys then some (d.val x) else none

/-- Python `dict[x] = v`. -/
def MoveDict.set (d : MoveDict) (x : ℤ) (v : List ℤ) : MoveDict :=
  ⟨insert x d.keys, fun y => if y = x then v else d.val y⟩

/-- Source lines 212-213: `self.winning_moves[x] = (self.winning_moves.get(x)
or []) + [opponent_position]` for `x` over `range(opponent_position -
max_move, opponent_position)` — note the range is not clamped at
`initial_position` here, unlike line 210, and Python `or` sends both `None`
and `[]` to `[]`, i.e. `Option.getD []`. -/
def appendMoves (opp : ℤ) : List ℤ → MoveDict → MoveDict
  | [], d => d
  | x :: xs, d => appendMoves opp xs (d.set x (((d.get x).getD []) ++ [opp]))

/-- The game bounds `find_winning_strategy` reads through `self.game`. -/
structure Bounds where
  initial_position : ℤ
  final_position : ℤ
  max_move : ℤ

/-- Accumulator of one iteration of the `while True` loop: the dict being
mutated, the set `new_positions`, and the `updated_strategy` flag. -/
structure PassAcc where
  dict : MoveDict
  newPos : Finset ℤ
  updated : Bool

/-- Loop body for one `opponent_position` (source lines 200-214): skip it if
below the initial position or already in `winning_strategy`; otherwise, if
every position reachable from it in one move is in `winning_strategy`, add
`range(max(initial_position, opponent_position - max_move),
opponent_position)` to `new_positions`, append `opponent_position` to the
`winning_moves` entry of each `x` in the unclamped
`range(opponent_position - max_move, opponent_position)`, and set the
updated flag. -/
def processOpp (bd : Bounds) (ws : Finset ℤ) (acc : PassAcc) (opp : ℤ) : PassAcc :=
  if opp < bd.initial_position ∨ opp ∈ ws then acc
  else if ∀ q ∈ intRange (opp + 1) (opp + bd.max_move + 1), q ∈ ws then
    ⟨appendMoves opp (intRange (opp - bd.max_move) opp) acc.dict,
     acc.newPos ∪ Finset.Ico (max bd.initial_position (opp - bd.max_move)) opp,
     true⟩
  else acc

/-- Loop body for one `i in previous_positions` (source line 199):
scan `range(max(initial_position, i - max_move), i)`. -/
def processI (bd : Bounds) (ws : Finset ℤ) (acc : PassAcc) (i : ℤ) : PassAcc :=
  (intRange (max bd.initial_position (i - bd.max_move)) i).foldl (processOpp bd ws) acc

/-- One iteration of the `while True` body of `find_winning_strategy`.
Python iterates the set `previous_positions` in unspecified order; its
elements always lie in `[initial_position, final_position)` whenever the
loop runs (a loop invariant proved below), so we fix the ascending order.
Neither `winning_strategy` nor the order-insensitive facts proved about
`winning_moves` depend on this choice. -/
def onePass (bd : Bounds) (ws : Finset ℤ) (d : MoveDict) (prev : Finset ℤ) : PassAcc :=
  ((intRange bd.initial_position bd.final_position).filter
    (fun i => decide (i ∈ prev))).foldl (processI bd ws) ⟨d, ∅, false⟩

/-- The `while True` loop of `find_winning_strategy`: after each pass,
`winning_strategy` absorbs `new_positions`, which becomes
`previous_positions`, and the loop breaks when `updated_strategy` stayed
false.  The Python loop is unbounded; here it runs on fuel, and
`strategyFuel` is proved sufficient for the break to be reached
(`loop_terminates` below), so the fuelled runs coincide with the source. -/
def loop (bd : Bounds) : ℕ → Finset ℤ → MoveDict → Finset ℤ → Option (Finset ℤ × MoveDict)
  | 0, _, _, _ => none
  | fuel + 1, ws, d, prev =>
    if (onePass bd ws d prev).updated then
      loop bd fuel (ws ∪ (onePass bd ws d prev).newPos) (onePass bd ws d prev).dict
        (onePass bd ws d prev).newPos
    else some (ws ∪ (onePass bd ws d prev).newPos, (onePass bd ws d prev).dict)

/-- Bounds from the construction inputs: `final_position = day+month+year`,
`max_move = day+month`, as set by `Game.__init__`. -/
def mkBounds (day month year initial_position : ℤ) : Bounds :=
  ⟨initial_position, day + month + year, day + month⟩

/-- Source line 183: the seed set
`range(max(final_position - max_move, initial_position), final_position)`. -/
def initialStrategy (bd : Bounds) : Finset ℤ :=
  Finset.Ico (max (bd.final_position - bd.max_move) bd.initial_position)
    bd.final_position

/-- Source line 185:
`winning_moves = {x: [final_position] for x in winning_strategy}`. -/
def initialMoves (bd : Bounds) : MoveDict :=
  ⟨initialStrategy bd,
   fun x => if x ∈ initialStrategy bd then [bd.final_position] else []⟩

/-- Fuel sufficient for the loop to reach its break (`loop_terminates`). -/
def strategyFuel (bd : Bounds) : ℕ :=
  (bd.final_position - bd.initial_position).toNat + 2

/-- The bot: its game plus the computed `winning_strategy`/`winning_moves`. -/
structure SpoilerBot where
  game : GameState
  winning_strategy : Finset ℤ
  winning_moves : MoveDict

/-- `SpoilerBot.__init__`: constructs the `Game` (whose assert can fail),
seeds `winning_strategy` and `winning_moves`, and runs
`find_winning_strategy` (the mode dispatch table is I/O glue, omitted). -/
def mkSpoilerBot (day month year initial_position : ℤ) : Option SpoilerBot :=
  (mkGame day month year initial_position).bind (fun g =>
    (loop (mkBounds day month year initial_position)
        (strategyFuel (mkBounds day month year initial_position))
        (initialStrategy (mkBounds day month year initial_position))
        (initialMoves (mkBounds day month year initial_position))
        (initialStrategy (mkBounds day month year initial_position))).map
      (fun r => ⟨g, r.1, r.2⟩))

/-- Python `max` over a list of ints (`none` on `[]`, where Python raises). -/
def listMax : List ℤ → Option ℤ
  | [] => none
  | h :: t => some (t.foldl max h)

/-- `SpoilerBot.pick_smart_move`, with the current position passed
explicitly: if the position is in `winning_strategy`, return
`max(self.winning_moves.get(position)) - position or None` — the trailing
`or None` turns a zero delta into `None`; otherwise return `None`. -/
def pick_smart_move (b : SpoilerBot) (position : ℤ) : Option ℤ :=
  if position ∈ b.winning_strategy then
    match listMax ((b.winning_moves.get position).getD []) with
    | none => none
    | some m => if m - position = 0 then none else some (m - position)
  else none

/-- The computed `winning_strategy` for given construction inputs (`∅` when
construction fails). -/
def botStrategy (day month year initial_position : ℤ) : Finset ℤ :=
  ((mkSpoilerBot day month year initial_position).map
    SpoilerBot.winning_strategy).getD ∅

/-- The bot for inputs `(1, 1, 8, 1)`: `max_move = 2`,
`final_position = 10`, `initial_position = 1`. -/
def bot218 : SpoilerBot :=
  (mkSpoilerBot 1 1 8 1).getD ⟨⟨0, none, 0, 0, 0, 0⟩, ∅, ⟨∅, fun _ => []⟩⟩

/-- A dict is well-formed when `val` is `[]` off its key set. -/
def DictWF (d : MoveDict) : Prop := ∀ x, x ∉ d.keys → d.val x = []

/-- Every stored target is reachable from its key in one legal move
(`1 ≤ t - x ≤ max_move`) and does not pass `final_position`. -/
def ValBound (bd : Bounds) (d : MoveDict) : Prop :=
  ∀ x t, t ∈ d.val x → x < t ∧ t ≤ x + bd.max_move ∧ t ≤ bd.final_position

/-- Invariant of the pass accumulator, relative to the pass's fixed
`winning_strategy`. -/
def AccInv (bd : Bounds) (ws : Finset ℤ) (a : PassAcc) : Prop :=
  a.newPos ⊆ Finset.Ico bd.initial_position bd.final_position ∧
  a.dict.keys.filter (fun x => bd.initial_position ≤ x) = ws ∪ a.newPos ∧
  ValBound bd a.dict ∧ DictWF a.dict

/-- Invariant at the top of each `while` iteration. -/
def LoopInv (bd : Bounds) (ws : Finset ℤ) (d : MoveDict) (prev : Finset ℤ) : Prop :=
  ws ⊆ Finset.Ico bd.initial_position bd.final_position ∧
  prev ⊆ ws ∧
  d.keys.filter (fun x => bd.initial_position ≤ x) = ws ∧
  ValBound bd d ∧ DictWF d

/-- Termination measure: how far the top of `previous_positions` sits above
`initial_position`. -/
def posMeasure (initial : ℤ) (s : Finset ℤ) : ℕ :=
  if h : s.Nonempty then (s.max' h - initial).toNat + 1 else 0

theorem mem_intRange {a b x : ℤ} : x ∈ intRange a b ↔ a ≤ x ∧ x < b := by
  unfold intRange
  rw [List.mem_map]
  constructor
  · rintro ⟨k, hk, hke⟩
    rw [List.mem_range] at hk
    omega
  · rintro ⟨h1, h2⟩
    refine ⟨(x - a).toNat, ?_, ?_⟩
    · rw [List.mem_range]
      omega
    · dsimp only
      omega

theorem moveFailed_iff (g : GameState) (move : ℤ) :
    moveFailed g move = true ↔
      ¬ (g.winner = none ∧ 1 ≤ move ∧ move ≤ g.max_move ∧
          g.current_position + move ≤ g.final_position) := by
  by_cases hw : g.winner = none
  · by_cases hm : 1 ≤ move ∧ move ≤ g.max_move ∧
        g.current_position + move ≤ g.final_position
    · simp [moveFailed, perform_move, hw, hm]
    · simp [moveFailed, perform_move, hw, hm]
  · simp [moveFailed, perform_move, hw]

theorem bool_eq_of_iff {a b : Bool} (h : a = true ↔ b = true) : a = b := by
  cases a <;> cases b <;> simp_all


/-- Helper: `perform_move` success preserves the game invariant and the
fixed fields. -/
theorem perform_move_preserves (g g2 : GameState) (move : ℤ)
    (hinv : GameInv g) (h : perform_move g move = .ok g2) :
    GameInv g2 ∧ g2.initial_position = g.initial_position ∧
      g2.final_position = g.final_position ∧ g2.max_move = g.max_move := by
  unfold GameInv at hinv
  obtain ⟨k1, k2, k3⟩ := hinv
  unfold perform_move at h
  split at h
  · cases h
  next hw =>
    split at h
    · cases h
    next hm =>
      rw [not_not] at hm
      rw [not_ne_iff] at hw
      obtain ⟨h1, h2, h3⟩ := hm
      cases h
      constructor
      · unfold GameInv
        refine ⟨?_, ?_, ?_⟩
        · show g.initial_position ≤ g.current_position + move
          omega
        · show g.current_position + move ≤ g.final_position
          omega
        · show (if g.current_position + move = g.final_position then
              some g.next_player else g.winner) ≠ none ↔
              g.current_position + move = g.final_position
          by_cases heq : g.current_position + move = g.final_position
          · simp [heq]
          · simp [heq, hw]
      · exact ⟨rfl, rfl, rfl⟩

theorem applyMoves_preserves (ms : List ℤ) :
    ∀ (g g2 : GameState), GameInv g → applyMoves g ms = .ok g2 →
      GameInv g2 ∧ g2.initial_position = g.initial_position ∧
        g2.final_position = g.final_position := by
  induction ms with
  | nil =>
    intro g g2 hinv h
    rw [applyMoves] at h
    cases h
    exact ⟨hinv, rfl, rfl⟩
  | cons m ms ih =>
    intro g g2 hinv h
    cases hp : perform_move g m with
    | error e =>
      rw [applyMoves, hp] at h
      cases h
    | ok g1 =>
      rw [applyMoves, hp] at h
      obtain ⟨j1, j2, j3, _⟩ := perform_move_preserves g g1 m hinv hp
      obtain ⟨l1, l2, l3⟩ := ih g1 g2 j1 h
      exact ⟨l1, by omega, by omega⟩

/-- C6 is refuted at a concrete input: from `gEx` (position 9, final 10,
Duplicator to move) the move `+1` wins, the winner is recorded as the mover
(`next_player` before the toggle), but `next_player` is toggled anyway —
`gExWin.next_player = 1` differs from `gEx.next_player = 0`, while the
claim says the winning move leaves `nextMover` unchanged. -/
theorem perform_move_toggle_counterexample :
    perform_move gEx 1 = .ok gExWin ∧
    gExWin.current_position = gEx.final_position ∧
    gExWin.winner = some gEx.next_player ∧
    gExWin.next_player ≠ gEx.next_player :=
  ⟨rfl, rfl, rfl, by decide⟩

/-- C6 (amended): for every state with `winner` unset and every in-range,
non-overshooting `delta`, `perform_move` succeeds, advances the position,
sets `winner` to the mover exactly when the new position is the final one,
and toggles `next_player` unconditionally — also on the winning move. -/
theorem perform_move_success (g : GameState) (move : ℤ) (h0 : g.winner = none)
    (h1 : 1 ≤ move) (h2 : move ≤ g.max_move)
    (h3 : g.current_position + move ≤ g.final_position) :
    perform_move g move = .ok
      { g with
        current_position := g.current_position + move,
        winner := if g.current_position + move = g.final_position then
            some g.next_player
          else none,
        next_player := (g.next_player + 1) % 2 } := by
  unfold perform_move
  rw [if_neg (by simp [h0])]
  rw [if_neg (by push_neg; exact ⟨h1, h2, h3⟩)]
  rw [h0]

/-- Witness for C6 (amended) at the concrete input `gEx`, move `+1`. -/
theorem perform_move_success_witness :
    perform_move gEx 1 = .ok
      { gEx with
        current_position := gEx.current_position + 1,
        winner := if gEx.current_position + 1 = gEx.final_position then
            some gEx.next_player
          else none,
        next_player := (gEx.next_player + 1) % 2 } :=
  perform_move_success gEx 1 rfl (by decide) (by decide) (by decide)

/-- C7: `perform_move` fails exactly when the winner is already set, the
move is out of `[1, max_move]`, or the move overshoots `final_position`;
and whose turn it is (`next_player`) has no effect on whether it fails, so
turn alternation is not a precondition. -/
theorem perform_move_failure_iff (g : GameState) (move : ℤ) :
    (moveFailed g move = true ↔
      (g.winner ≠ none ∨ move < 1 ∨ g.max_move < move ∨
        g.final_position < g.current_position + move)) ∧
    (∀ k, moveFailed { g with next_player := k } move = moveFailed g move) := by
  constructor
  · rw [moveFailed_iff]
    constructor
    · intro h
      by_contra hc
      push_neg at hc
      exact h hc
    · intro h hcon
      obtain ⟨hw, u1, u2, u3⟩ := hcon
      rcases h with h | h | h | h
      · exact h hw
      · omega
      · omega
      · omega
  · intro k
    apply bool_eq_of_iff
    rw [moveFailed_iff, moveFailed_iff]

/-- C8: from any successfully constructed game with
`initial_position < final_position`, after any sequence of successful
moves the position stays in `[initial_position, final_position]` and the
winner is set exactly when the final position is reached. -/
theorem game_invariant (day month year initial_position : ℤ) (ms : List ℤ)
    (g0 g2 : GameState) (h0 : mkGame day month year initial_position = some g0)
    (hlt : initial_position < day + month + year)
    (h : applyMoves g0 ms = .ok g2) :
    initial_position ≤ g2.current_position ∧
    g2.current_position ≤ day + month + year ∧
    (g2.winner ≠ none ↔ g2.current_position = day + month + year) := by
  unfold mkGame at h0
  split at h0
  next hi =>
    cases h0
    have hinv0 : GameInv ⟨0, none, initial_position, initial_position,
        day + month + year, day + month⟩ := by
      unfold GameInv
      refine ⟨le_refl _, ?_, ?_⟩
      · show initial_position ≤ day + month + year
        omega
      · show (none : Option ℕ) ≠ none ↔ initial_position = day + month + year
        constructor
        · intro hc
          exact absurd rfl hc
        · intro hc
          exact absurd hc (by omega)
    obtain ⟨hinv2, e1, e2⟩ := applyMoves_preserves ms _ g2 hinv0 h
    unfold GameInv at hinv2
    obtain ⟨k1, k2, k3⟩ := hinv2
    simp only at e1 e2
    refine ⟨by omega, by omega, ?_⟩
    rw [← e2]
    exact k3
  next hi =>
    exact Option.noConfusion h0

/-- Witness for C8: the game `(day, month, year) = (1, 1, 8)` started at
position 1, after the successful moves `[2, 2]`, reaching `gEx2`. -/
theorem game_invariant_witness :
    (1 : ℤ) ≤ gEx2.current_position ∧
    gEx2.current_position ≤ 1 + 1 + 8 ∧
    (gEx2.winner ≠ none ↔ gEx2.current_position = 1 + 1 + 8) :=
  game_invariant 1 1 8 1 [2, 2] gEx0 gEx2 rfl (by decide) rfl

/-- C9 is refuted at a concrete input: `Game.__init__` performs no
validation of the span or of `max_move` — with
`(day, month, year, initial_position) = (0, 0, 1, 1)` we get
`final_position - initial_position = 0 < 1` and `max_move = 0 < 1`, yet
construction succeeds, while the claim says it must fail. -/
theorem mkGame_missing_validation_counterexample :
    (mkGame 0 0 1 1).isSome = true ∧
    (0 : ℤ) + 0 + 1 - 1 < 1 ∧ (0 : ℤ) + 0 < 1 := by
  refine ⟨rfl, by decide, by decide⟩

/-- C9 (amended): `Game.__init__` succeeds exactly when
`initial_position >= 1`; it does not check `final_position -
initial_position >= 1` nor `max_move >= 1`, so a game with
`initial_position = final_position` or a non-positive maximum move is
constructed without error. -/
theorem mkGame_succeeds_iff (day month year initial_position : ℤ) :
    (mkGame day month year initial_position).isSome = true ↔
      1 ≤ initial_position := by
  unfold mkGame
  split
  next hi => simpa using hi
  next hi => simpa using hi

/-- C10: `perform_move` is atomic on error — both asserts precede the
position update, so the state carried by a raise is the unmodified input
state. -/
theorem perform_move_error_state (g g2 : GameState) (move : ℤ)
    (h : perform_move g move = .error g2) : g2 = g := by
  unfold perform_move at h
  split at h
  · injection h with h
    exact h.symm
  · split at h
    · injection h with h
      exact h.symm
    · cases h

/-- Witness for C10: `perform_move gEx 0` fails (the move `0` is below the
minimum) and the reported state is `gEx` itself, unchanged. -/
theorem perform_move_error_state_witness :
    perform_move gEx 0 = .error gEx ∧ gEx = gEx :=
  ⟨rfl, perform_move_error_state gEx gEx 0 rfl⟩

theorem set_keys_eq (d : MoveDict) (a : ℤ) (v : List ℤ) :
    (d.set a v).keys = insert a d.keys := rfl

theorem set_val_eq (d : MoveDict) (a : ℤ) (v : List ℤ) :
    (d.set a v).val = fun y => if y = a then v else d.val y := rfl

theorem get_eq (d : MoveDict) (x : ℤ) :
    d.get x = if x ∈ d.keys then some (d.val x) else none := rfl

theorem getD_sub (d : MoveDict) (x t : ℤ) (ht : t ∈ (d.get x).getD []) :
    t ∈ d.val x := by
  rw [get_eq] at ht
  by_cases hk : x ∈ d.keys
  · rw [if_pos hk] at ht
    simpa using ht
  · rw [if_neg hk] at ht
    simp at ht

theorem getD_eq_val (d : MoveDict) (hwf : DictWF d) (x : ℤ) :
    (d.get x).getD [] = d.val x := by
  rw [get_eq]
  by_cases hk : x ∈ d.keys
  · rw [if_pos hk]
    rfl
  · rw [if_neg hk, hwf x hk]
    rfl

theorem set_wf (d : MoveDict) (a : ℤ) (v : List ℤ) (hwf : DictWF d) :
    DictWF (d.set a v) := by
  intro y hy
  rw [set_keys_eq] at hy
  simp only [Finset.mem_insert, not_or] at hy
  obtain ⟨h1, h2⟩ := hy
  simp only [set_val_eq, if_neg h1]
  exact hwf y h2

theorem set_val_mem (d : MoveDict) (a opp x t : ℤ)
    (ht : t ∈ (d.set a (((d.get a).getD []) ++ [opp])).val x) :
    t ∈ d.val x ∨ (t = opp ∧ x = a) := by
  simp only [set_val_eq] at ht
  by_cases hax : x = a
  · subst hax
    rw [if_pos rfl] at ht
    rcases List.mem_append.mp ht with h | h
    · exact Or.inl (getD_sub d x t h)
    · simp only [List.mem_singleton] at h
      exact Or.inr ⟨h, rfl⟩
  · rw [if_neg hax] at ht
    exact Or.inl ht

theorem set_val_mono (d : MoveDict) (a opp x t : ℤ) (hwf : DictWF d)
    (ht : t ∈ d.val x) :
    t ∈ (d.set a (((d.get a).getD []) ++ [opp])).val x := by
  simp only [set_val_eq]
  by_cases hax : x = a
  · subst hax
    rw [if_pos rfl]
    exact List.mem_append_left _ (by rw [getD_eq_val d hwf]; exact ht)
  · rw [if_neg hax]
    exact ht

theorem appendMoves_keys (opp : ℤ) :
    ∀ (xs : List ℤ) (d : MoveDict),
      (appendMoves opp xs d).keys = d.keys ∪ xs.toFinset := by
  intro xs
  induction xs with
  | nil =>
    intro d
    rw [appendMoves]
    simp
  | cons x xs ih =>
    intro d
    rw [appendMoves, ih, set_keys_eq]
    ext y
    simp only [Finset.mem_union, Finset.mem_insert, List.toFinset_cons,
      List.mem_toFinset]
    tauto

theorem appendMoves_wf (opp : ℤ) :
    ∀ (xs : List ℤ) (d : MoveDict), DictWF d → DictWF (appendMoves opp xs d) := by
  intro xs
  induction xs with
  | nil =>
    intro d hwf
    rw [appendMoves]
    exact hwf
  | cons x xs ih =>
    intro d hwf
    rw [appendMoves]
    exact ih _ (set_wf _ _ _ hwf)

theorem appendMoves_val_mem (opp : ℤ) :
    ∀ (xs : List ℤ) (d : MoveDict) (x t : ℤ),
      t ∈ (appendMoves opp xs d).val x → t ∈ d.val x ∨ (t = opp ∧ x ∈ xs) := by
  intro xs
  induction xs with
  | nil =>
    intro d x t ht
    rw [appendMoves] at ht
    exact Or.inl ht
  | cons a xs ih =>
    intro d x t ht
    rw [appendMoves] at ht
    rcases ih _ x t ht with h | ⟨he, hx⟩
    · rcases set_val_mem d a opp x t h with h2 | ⟨he, hxa⟩
      · exact Or.inl h2
      · exact Or.inr ⟨he, by rw [hxa]; exact List.mem_cons_self a xs⟩
    · exact Or.inr ⟨he, List.mem_cons_of_mem a hx⟩

theorem appendMoves_val_mono (opp : ℤ) :
    ∀ (xs : List ℤ) (d : MoveDict), DictWF d → ∀ (x t : ℤ),
      t ∈ d.val x → t ∈ (appendMoves opp xs d).val x := by
  intro xs
  induction xs with
  | nil =>
    intro d _ x t ht
    rw [appendMoves]
    exact ht
  | cons a xs ih =>
    intro d hwf x t ht
    rw [appendMoves]
    exact ih _ (set_wf _ _ _ hwf) x t (set_val_mono d a opp x t hwf ht)

theorem foldlPreserve {α β : Type} (f : β → α → β) (P : β → Prop) (Q : α → Prop) :
    ∀ (l : List α) (b : β), P b → (∀ a ∈ l, Q a) →
      (∀ b2 a2, P b2 → Q a2 → P (f b2 a2)) → P (l.foldl f b) := by
  intro l
  induction l with
  | nil =>
    intro b hb _ _
    simpa using hb
  | cons a t ih =>
    intro b hb hl hstep
    rw [List.foldl_cons]
    exact ih (f b a) (hstep b a hb (hl a (List.mem_cons_self a t)))
      (fun x hx => hl x (List.mem_cons_of_mem a hx)) hstep

theorem processOpp_inv (bd : Bounds) (ws : Finset ℤ) (a : PassAcc) (opp : ℤ)
    (ha : AccInv bd ws a) (hopp : opp < bd.final_position) :
    AccInv bd ws (processOpp bd ws a opp) := by
  unfold processOpp
  split
  · exact ha
  next hskip =>
    split
    next hall =>
      push_neg at hskip
      obtain ⟨hge, hnotin⟩ := hskip
      unfold AccInv at ha ⊢
      obtain ⟨hnp, hkeys, hvb, hwf⟩ := ha
      refine ⟨?_, ?_, ?_, ?_⟩
      · dsimp only
        intro x hx
        rcases Finset.mem_union.mp hx with hx | hx
        · exact hnp hx
        · obtain ⟨hx1, hx2⟩ := Finset.mem_Ico.mp hx
          have h3 : bd.initial_position ≤ x := le_trans (le_max_left _ _) hx1
          exact Finset.mem_Ico.mpr ⟨h3, lt_trans hx2 hopp⟩
      · dsimp only
        rw [appendMoves_keys, Finset.filter_union, hkeys]
        have hxs : (intRange (opp - bd.max_move) opp).toFinset.filter
            (fun x => bd.initial_position ≤ x) =
            Finset.Ico (max bd.initial_position (opp - bd.max_move)) opp := by
          ext y
          simp only [Finset.mem_filter, List.mem_toFinset, mem_intRange,
            Finset.mem_Ico, max_le_iff]
          omega
        rw [hxs]
        ext y
        simp only [Finset.mem_union]
        tauto
      · dsimp only
        intro x t ht
        rcases appendMoves_val_mem opp _ _ x t ht with h | ⟨he, hx⟩
        · exact hvb x t h
        · obtain ⟨hx1, hx2⟩ := mem_intRange.mp hx
          subst he
          exact ⟨hx2, by omega, by omega⟩
      · exact appendMoves_wf opp _ _ hwf
    · exact ha

theorem processI_inv (bd : Bounds) (ws : Finset ℤ) (a : PassAcc) (i : ℤ)
    (ha : AccInv bd ws a) (hi : i < bd.final_position) :
    AccInv bd ws (processI bd ws a i) := by
  unfold processI
  refine foldlPreserve (processOpp bd ws) (AccInv bd ws)
    (fun opp => opp < bd.final_position) _ a ha ?_ ?_
  · intro opp hopp
    exact lt_trans (mem_intRange.mp hopp).2 hi
  · intro a2 opp ha2 hq
    exact processOpp_inv bd ws a2 opp ha2 hq

theorem onePass_inv (bd : Bounds) (ws : Finset ℤ) (d : MoveDict)
    (prev : Finset ℤ) (h : LoopInv bd ws d prev) :
    AccInv bd ws (onePass bd ws d prev) := by
  unfold LoopInv at h
  obtain ⟨hws, hprev, hkeys, hvb, hwf⟩ := h
  unfold onePass
  refine foldlPreserve (processI bd ws) (AccInv bd ws)
    (fun i => i < bd.final_position) _ _ ?_ ?_ ?_
  · unfold AccInv
    refine ⟨?_, ?_, hvb, hwf⟩
    · dsimp only
      exact Finset.empty_subset _
    · dsimp only
      rw [Finset.union_empty]
      exact hkeys
  · intro i hi
    rw [List.mem_filter] at hi
    exact (mem_intRange.mp hi.1).2
  · intro a2 i ha2 hq
    exact processI_inv bd ws a2 i ha2 hq

theorem onePass_loopInv (bd : Bounds) (ws : Finset ℤ) (d : MoveDict)
    (prev : Finset ℤ) (h : LoopInv bd ws d prev) :
    LoopInv bd (ws ∪ (onePass bd ws d prev).newPos) (onePass bd ws d prev).dict
      (onePass bd ws d prev).newPos := by
  have ha := onePass_inv bd ws d prev h
  unfold AccInv at ha
  obtain ⟨hnp, hkeys, hvb, hwf⟩ := ha
  unfold LoopInv at h ⊢
  refine ⟨Finset.union_subset h.1 hnp, ?_, hkeys, hvb, hwf⟩
  intro x hx
  exact Finset.mem_union_right _ hx

theorem loop_inv (bd : Bounds) :
    ∀ (fuel : ℕ) (ws : Finset ℤ) (d : MoveDict) (prev ws2 : Finset ℤ)
      (d2 : MoveDict), LoopInv bd ws d prev →
      loop bd fuel ws d prev = some (ws2, d2) → LoopInv bd ws2 d2 ws2 := by
  intro fuel
  induction fuel with
  | zero =>
    intro ws d prev ws2 d2 _ h
    exact Option.noConfusion h
  | succ n ih =>
    intro ws d prev ws2 d2 hinv h
    rw [loop] at h
    split at h
    · exact ih _ _ _ _ _ (onePass_loopInv bd ws d prev hinv) h
    · injection h with h
      obtain ⟨h1, h2⟩ := Prod.mk.injEq .. ▸ h
      subst h1
      subst h2
      have := onePass_loopInv bd ws d prev hinv
      unfold LoopInv at this ⊢
      obtain ⟨j1, j2, j3, j4, j5⟩ := this
      exact ⟨j1, fun x hx => hx, j3, j4, j5⟩

theorem onePass_dict_mono (bd : Bounds) (ws : Finset ℤ) (d : MoveDict)
    (prev : Finset ℤ) (hwf : DictWF d) :
    d.keys ⊆ (onePass bd ws d prev).dict.keys ∧
    (∀ x t, t ∈ d.val x → t ∈ (onePass bd ws d prev).dict.val x) ∧
    DictWF (onePass bd ws d prev).dict := by
  unfold onePass
  refine foldlPreserve (processI bd ws)
    (fun a => d.keys ⊆ a.dict.keys ∧
      (∀ x t, t ∈ d.val x → t ∈ a.dict.val x) ∧ DictWF a.dict)
    (fun _ => True) _ _ ⟨fun x hx => hx, fun _ _ ht => ht, hwf⟩
    (fun _ _ => trivial) ?_
  intro a2 i ha2 _
  unfold processI
  refine foldlPreserve (processOpp bd ws)
    (fun a => d.keys ⊆ a.dict.keys ∧
      (∀ x t, t ∈ d.val x → t ∈ a.dict.val x) ∧ DictWF a.dict)
    (fun _ => True) _ _ ha2 (fun _ _ => trivial) ?_
  intro a3 opp ha3 _
  obtain ⟨g1, g2, g3⟩ := ha3
  unfold processOpp
  split
  · exact ⟨g1, g2, g3⟩
  split
  · refine ⟨?_, ?_, ?_⟩
    · dsimp only
      rw [appendMoves_keys]
      intro x hx
      exact Finset.mem_union_left _ (g1 hx)
    · dsimp only
      intro x t ht
      exact appendMoves_val_mono opp _ _ g3 x t (g2 x t ht)
    · exact appendMoves_wf opp _ _ g3
  · exact ⟨g1, g2, g3⟩

theorem loop_mono (bd : Bounds) :
    ∀ (fuel : ℕ) (ws : Finset ℤ) (d : MoveDict) (prev ws2 : Finset ℤ)
      (d2 : MoveDict), DictWF d → loop bd fuel ws d prev = some (ws2, d2) →
      ws ⊆ ws2 ∧ d.keys ⊆ d2.keys ∧ (∀ x t, t ∈ d.val x → t ∈ d2.val x) := by
  intro fuel
  induction fuel with
  | zero =>
    intro ws d prev ws2 d2 _ h
    exact Option.noConfusion h
  | succ n ih =>
    intro ws d prev ws2 d2 hwf h
    rw [loop] at h
    obtain ⟨m1, m2, m3⟩ := onePass_dict_mono bd ws d prev hwf
    split at h
    · obtain ⟨l1, l2, l3⟩ := ih _ _ _ _ _ m3 h
      refine ⟨fun x hx => l1 (Finset.mem_union_left _ hx), ?_, ?_⟩
      · intro x hx
        exact l2 (m1 hx)
      · intro x t ht
        exact l3 x t (m2 x t ht)
    · injection h with h
      obtain ⟨h1, h2⟩ := Prod.mk.injEq .. ▸ h
      subst h1
      subst h2
      exact ⟨fun x hx => Finset.mem_union_left _ hx, m1, m2⟩

theorem filter_empty_mem (l : List ℤ) :
    l.filter (fun i => decide (i ∈ (∅ : Finset ℤ))) = [] := by
  induction l with
  | nil => rfl
  | cons a t ih =>
    rw [List.filter_cons, if_neg (by simp)]
    exact ih

theorem onePass_empty (bd : Bounds) (ws : Finset ℤ) (d : MoveDict) :
    onePass bd ws d ∅ = ⟨d, ∅, false⟩ := by
  unfold onePass
  rw [filter_empty_mem]
  rfl

theorem onePass_newPos_bound (bd : Bounds) (ws : Finset ℤ) (d : MoveDict)
    (prev : Finset ℤ) :
    ∀ x ∈ (onePass bd ws d prev).newPos,
      bd.initial_position ≤ x ∧ ∃ i ∈ prev, x < i := by
  unfold onePass
  refine foldlPreserve (processI bd ws)
    (fun a => ∀ x ∈ a.newPos, bd.initial_position ≤ x ∧ ∃ i ∈ prev, x < i)
    (fun i => i ∈ prev) _ _ ?_ ?_ ?_
  · intro x hx
    exact absurd hx (Finset.not_mem_empty x)
  · intro i hi
    rw [List.mem_filter] at hi
    exact of_decide_eq_true hi.2
  · intro a2 i ha2 hip
    unfold processI
    refine foldlPreserve (processOpp bd ws)
      (fun a => ∀ x ∈ a.newPos, bd.initial_position ≤ x ∧ ∃ i ∈ prev, x < i)
      (fun opp => opp < i) _ _ ha2 ?_ ?_
    · intro opp ho
      exact (mem_intRange.mp ho).2
    · intro a3 opp ha3 hoi
      unfold processOpp
      split
      · exact ha3
      split
      · intro x hx
        rcases Finset.mem_union.mp hx with hx | hx
        · exact ha3 x hx
        · obtain ⟨hx1, hx2⟩ := Finset.mem_Ico.mp hx
          exact ⟨le_trans (le_max_left _ _) hx1, ⟨i, hip, lt_trans hx2 hoi⟩⟩
      · exact ha3

theorem onePass_not_updated (bd : Bounds) (ws : Finset ℤ) (d : MoveDict)
    (prev : Finset ℤ) (h : (onePass bd ws d prev).updated = false) :
    (onePass bd ws d prev).newPos = ∅ := by
  revert h
  unfold onePass
  refine foldlPreserve (processI bd ws)
    (fun a => a.updated = false → a.newPos = ∅) (fun _ => True) _ _
    (fun _ => rfl) (fun _ _ => trivial) ?_
  intro a2 i ha2 _
  unfold processI
  refine foldlPreserve (processOpp bd ws)
    (fun a => a.updated = false → a.newPos = ∅) (fun _ => True) _ _ ha2
    (fun _ _ => trivial) ?_
  intro a3 opp ha3 _
  unfold processOpp
  split
  · exact ha3
  split
  · intro hfalse
    exact Bool.noConfusion hfalse
  · exact ha3

theorem posMeasure_empty (initial : ℤ) : posMeasure initial ∅ = 0 := by
  unfold posMeasure
  rw [dif_neg]
  simp [Finset.nonempty_iff_ne_empty]

theorem posMeasure_decrease (initial : ℤ) {s t : Finset ℤ}
    (h : ∀ x ∈ s, initial ≤ x ∧ ∃ i ∈ t, x < i) (hs : s.Nonempty) :
    posMeasure initial s < posMeasure initial t := by
  have ht : t.Nonempty := by
    obtain ⟨x, hx⟩ := hs
    obtain ⟨_, i, hi, _⟩ := h x hx
    exact ⟨i, hi⟩
  unfold posMeasure
  rw [dif_pos hs, dif_pos ht]
  have hm := s.max'_mem hs
  obtain ⟨hinit, i, hi, hlt⟩ := h _ hm
  have hmax : s.max' hs < t.max' ht := lt_of_lt_of_le hlt (t.le_max' i hi)
  omega

theorem posMeasure_pos (initial : ℤ) {s : Finset ℤ} (hs : s.Nonempty) :
    1 ≤ posMeasure initial s := by
  unfold posMeasure
  rw [dif_pos hs]
  omega

theorem loop_terminates (bd : Bounds) :
    ∀ (fuel : ℕ) (ws : Finset ℤ) (d : MoveDict) (prev : Finset ℤ),
      posMeasure bd.initial_position prev + 2 ≤ fuel →
      ∃ r, loop bd fuel ws d prev = some r := by
  intro fuel
  induction fuel with
  | zero =>
    intro ws d prev h
    omega
  | succ n ih =>
    intro ws d prev hfuel
    rw [loop]
    cases hu : (onePass bd ws d prev).updated with
    | false =>
      rw [if_neg (by simp)]
      exact ⟨_, rfl⟩
    | true =>
      rw [if_pos rfl]
      by_cases hprev : prev = ∅
      · exfalso
        rw [hprev, onePass_empty] at hu
        exact Bool.noConfusion hu
      · have hne : prev.Nonempty := Finset.nonempty_iff_ne_empty.mpr hprev
        have hp1 : 1 ≤ posMeasure bd.initial_position prev :=
          posMeasure_pos _ hne
        by_cases hnp : (onePass bd ws d prev).newPos = ∅
        · rw [hnp]
          refine ih _ _ _ ?_
          rw [posMeasure_empty]
          omega
        · have hnpne : (onePass bd ws d prev).newPos.Nonempty :=
            Finset.nonempty_iff_ne_empty.mpr hnp
          have hdec := posMeasure_decrease bd.initial_position
            (onePass_newPos_bound bd ws d prev) hnpne
          refine ih _ _ _ ?_
          omega

theorem initial_loopInv (bd : Bounds) :
    LoopInv bd (initialStrategy bd) (initialMoves bd) (initialStrategy bd) := by
  unfold LoopInv
  refine ⟨?_, fun x hx => hx, ?_, ?_, ?_⟩
  · intro x hx
    have hx2 : x ∈ Finset.Ico
        (max (bd.final_position - bd.max_move) bd.initial_position)
        bd.final_position := hx
    obtain ⟨h1, h2⟩ := Finset.mem_Ico.mp hx2
    exact Finset.mem_Ico.mpr ⟨le_trans (le_max_right _ _) h1, h2⟩
  · ext y
    simp only [Finset.mem_filter]
    constructor
    · rintro ⟨h1, _⟩
      exact h1
    · intro h1
      have h2 : y ∈ Finset.Ico
          (max (bd.final_position - bd.max_move) bd.initial_position)
          bd.final_position := h1
      obtain ⟨ha, _⟩ := Finset.mem_Ico.mp h2
      exact ⟨h1, le_trans (le_max_right _ _) ha⟩
  · intro x t ht
    have ht2 : t ∈ (if x ∈ initialStrategy bd then [bd.final_position]
        else []) := ht
    split at ht2
    next hmem =>
      rw [List.mem_singleton] at ht2
      subst ht2
      have hmem2 : x ∈ Finset.Ico
          (max (bd.final_position - bd.max_move) bd.initial_position)
          bd.final_position := hmem
      obtain ⟨ha, hbb⟩ := Finset.mem_Ico.mp hmem2
      have hc := le_trans
        (le_max_left (bd.final_position - bd.max_move) bd.initial_position) ha
      exact ⟨hbb, by omega, le_refl _⟩
    next _ =>
      exact absurd ht2 (List.not_mem_nil t)
  · intro x hx
    have hx2 : x ∉ initialStrategy bd := hx
    have goal2 : (if x ∈ initialStrategy bd then [bd.final_position]
        else []) = [] := by
      rw [if_neg hx2]
    exact goal2

theorem initial_measure_le (bd : Bounds) :
    posMeasure bd.initial_position (initialStrategy bd) + 2 ≤ strategyFuel bd := by
  unfold posMeasure strategyFuel
  split
  next hne =>
    have hm := (initialStrategy bd).max'_mem hne
    have hm2 : (initialStrategy bd).max' hne ∈ Finset.Ico
        (max (bd.final_position - bd.max_move) bd.initial_position)
        bd.final_position := hm
    obtain ⟨h1, h2⟩ := Finset.mem_Ico.mp hm2
    have h3 := le_trans
      (le_max_right (bd.final_position - bd.max_move) bd.initial_position) h1
    omega
  next _ =>
    omega

theorem mkSpoilerBot_elim {day month year initial_position : ℤ}
    {b : SpoilerBot}
    (hb : mkSpoilerBot day month year initial_position = some b) :
    LoopInv (mkBounds day month year initial_position)
      b.winning_strategy b.winning_moves b.winning_strategy ∧
    initialStrategy (mkBounds day month year initial_position) ⊆
      b.winning_strategy ∧
    initialStrategy (mkBounds day month year initial_position) ⊆
      b.winning_moves.keys ∧
    (∀ x t, t ∈ (initialMoves (mkBounds day month year initial_position)).val x →
      t ∈ b.winning_moves.val x) := by
  unfold mkSpoilerBot at hb
  cases hmk : mkGame day month year initial_position with
  | none =>
    rw [hmk] at hb
    exact Option.noConfusion hb
  | some g =>
    rw [hmk] at hb
    rw [Option.some_bind] at hb
    obtain ⟨⟨ws2, d2⟩, hloop, hbe⟩ := Option.map_eq_some'.mp hb
    subst hbe
    have hwf0 : DictWF (initialMoves (mkBounds day month year initial_position)) := by
      have h := initial_loopInv (mkBounds day month year initial_position)
      unfold LoopInv at h
      exact h.2.2.2.2
    have hinv := loop_inv (mkBounds day month year initial_position) _ _ _ _ _ _
      (initial_loopInv (mkBounds day month year initial_position)) hloop
    obtain ⟨mono1, mono2, mono3⟩ := loop_mono
      (mkBounds day month year initial_position) _ _ _ _ _ _ hwf0 hloop
    refine ⟨hinv, ?_, ?_, ?_⟩
    · intro x hx
      exact mono1 hx
    · intro x hx
      exact mono2 hx
    · intro x t ht
      exact mono3 x t ht

theorem foldl_max_mem : ∀ (t : List ℤ) (h : ℤ),
    t.foldl max h = h ∨ t.foldl max h ∈ t := by
  intro t
  induction t with
  | nil =>
    intro h
    exact Or.inl rfl
  | cons a t ih =>
    intro h
    rw [List.foldl_cons]
    rcases ih (max h a) with hh | hh
    · rw [hh]
      rcases max_choice h a with hc | hc
      · exact Or.inl hc
      · rw [hc]
        exact Or.inr (List.mem_cons_self a t)
    · exact Or.inr (List.mem_cons_of_mem a hh)

theorem listMax_mem {l : List ℤ} {m : ℤ} (h : listMax l = some m) : m ∈ l := by
  cases l with
  | nil => exact Option.noConfusion h
  | cons a t =>
    rw [listMax] at h
    injection h with h
    subst h
    rcases foldl_max_mem t a with hh | hh
    · rw [hh]
      exact List.mem_cons_self a t
    · exact List.mem_cons_of_mem a hh

/-- C1 is refuted: for `max_move = 2`, `final_position = 10`,
`initial_position = 1` (inputs `(1, 1, 8, 1)`), the computed
`winning_strategy` is not `{8, 9, 7, 6, 4, 3, 1}` as the claim enumerates
(the code's set holds the positions from which the *mover to move* can
force a win, and equals `{2, 3, 5, 6, 8, 9}`). -/
theorem cold_positions_counterexample :
    mkSpoilerBot 1 1 8 1 = some bot218 ∧
    bot218.winning_strategy ≠ ({8, 9, 7, 6, 4, 3, 1} : Finset ℤ) :=
  ⟨rfl, by decide⟩

/-- C1 (amended): for `max_move = 2`, `final_position = 10`,
`initial_position = 1`, the computed `winning_strategy` is exactly
`{2, 3, 5, 6, 8, 9}` — the positions winning for the mover, i.e. those not
congruent to `10` modulo `max_move + 1 = 3` — and its complement within
`[1, 10)` is exactly `{1, 4, 7}`. -/
theorem cold_positions_enumerated :
    mkSpoilerBot 1 1 8 1 = some bot218 ∧
    bot218.winning_strategy = ({2, 3, 5, 6, 8, 9} : Finset ℤ) ∧
    Finset.Ico (1 : ℤ) 10 \ bot218.winning_strategy = ({1, 4, 7} : Finset ℤ) :=
  ⟨rfl, by decide, by decide⟩

/-- C2: for every `(day, month, year, initial_position)` with
`1 ≤ initial_position < final_position` and `max_move ≥ 1`, the
`find_winning_strategy` loop reaches its break within `strategyFuel`
(construction terminates and succeeds) and the computed `winning_strategy`
is contained in `[initial_position, final_position)`. -/
theorem strategy_terminates_subset (day month year initial_position : ℤ)
    (h1 : 1 ≤ initial_position) (h2 : initial_position < day + month + year)
    (h3 : 1 ≤ day + month) :
    (mkSpoilerBot day month year initial_position).isSome = true ∧
    botStrategy day month year initial_position ⊆
      Finset.Ico initial_position (day + month + year) := by
  obtain ⟨r, hr⟩ := loop_terminates (mkBounds day month year initial_position)
    (strategyFuel (mkBounds day month year initial_position))
    (initialStrategy (mkBounds day month year initial_position))
    (initialMoves (mkBounds day month year initial_position))
    (initialStrategy (mkBounds day month year initial_position))
    (initial_measure_le (mkBounds day month year initial_position))
  obtain ⟨ws2, d2⟩ := r
  have hsome : mkSpoilerBot day month year initial_position =
      some ⟨⟨0, none, initial_position, initial_position,
        day + month + year, day + month⟩, ws2, d2⟩ := by
    unfold mkSpoilerBot mkGame
    rw [if_pos h1, Option.some_bind, hr]
    rfl
  constructor
  · rw [hsome]
    rfl
  · have hinv := loop_inv (mkBounds day month year initial_position) _ _ _ _ _ _
      (initial_loopInv (mkBounds day month year initial_position)) hr
    unfold LoopInv at hinv
    unfold botStrategy
    rw [hsome]
    intro x hx
    exact hinv.1 hx

/-- Witness for C2 at the inputs `(1, 1, 8, 1)`. -/
theorem strategy_terminates_subset_witness :
    (mkSpoilerBot 1 1 8 1).isSome = true ∧
    botStrategy 1 1 8 1 ⊆ Finset.Ico (1 : ℤ) (1 + 1 + 8) :=
  strategy_terminates_subset 1 1 8 1 (by decide) (by decide) (by decide)

/-- C3: after construction, every position in the seed window
`[max(final_position - max_move, initial_position), final_position)` is in
`winning_strategy`, is a key of `winning_moves`, and its entry contains
`final_position` (the seeded `[final_position]` is only ever appended to). -/
theorem base_window_seeded (day month year initial_position : ℤ)
    (b : SpoilerBot) (p : ℤ)
    (hb : mkSpoilerBot day month year initial_position = some b)
    (hp : p ∈ Finset.Ico
      (max (day + month + year - (day + month)) initial_position)
      (day + month + year)) :
    p ∈ b.winning_strategy ∧ p ∈ b.winning_moves.keys ∧
    (day + month + year) ∈ (b.winning_moves.get p).getD [] := by
  obtain ⟨hinv, hsub, hkeys, hval⟩ := mkSpoilerBot_elim hb
  have hp2 : p ∈ initialStrategy (mkBounds day month year initial_position) := hp
  have hwfb : DictWF b.winning_moves := by
    unfold LoopInv at hinv
    exact hinv.2.2.2.2
  refine ⟨hsub hp2, hkeys hp2, ?_⟩
  have hbase : (day + month + year) ∈
      (initialMoves (mkBounds day month year initial_position)).val p := by
    show (day + month + year) ∈
      (if p ∈ initialStrategy (mkBounds day month year initial_position) then
        [(mkBounds day month year initial_position).final_position] else [])
    rw [if_pos hp2]
    exact List.mem_singleton.mpr rfl
  have hv := hval p (day + month + year) hbase
  rw [getD_eq_val b.winning_moves hwfb p]
  exact hv

/-- Witness for C3 at the inputs `(1, 1, 8, 1)` and window position `8`. -/
theorem base_window_seeded_witness :
    (8 : ℤ) ∈ bot218.winning_strategy ∧ (8 : ℤ) ∈ bot218.winning_moves.keys ∧
    ((1 : ℤ) + 1 + 8) ∈ (bot218.winning_moves.get 8).getD [] :=
  base_window_seeded 1 1 8 1 bot218 8 rfl (by decide)

/-- C4 is refuted: at inputs `(1, 1, 8, 1)`, the key `0` of `winning_moves`
is neither in `winning_strategy` nor in `[initial_position,
final_position) = [1, 10)` — line 212 of the source writes keys over the
unclamped `range(opponent_position - max_move, opponent_position)`. -/
theorem winning_moves_keys_counterexample :
    mkSpoilerBot 1 1 8 1 = some bot218 ∧
    (0 : ℤ) ∈ bot218.winning_moves.keys ∧
    (0 : ℤ) ∉ bot218.winning_strategy ∧
    (0 : ℤ) ∉ Finset.Ico (1 : ℤ) 10 :=
  ⟨rfl, by decide, by decide, by decide⟩

/-- C4 (amended): the keys of `winning_moves` that are at or above
`initial_position` are exactly `winning_strategy`; extra keys below
`initial_position` can exist (see the counterexample), and
`final_position` is never a key. -/
theorem winning_moves_keys_amended (day month year initial_position : ℤ)
    (b : SpoilerBot)
    (hb : mkSpoilerBot day month year initial_position = some b)
    (h2 : initial_position < day + month + year) :
    b.winning_moves.keys.filter (fun x => initial_position ≤ x) =
      b.winning_strategy ∧
    (day + month + year) ∉ b.winning_moves.keys := by
  obtain ⟨hinv, _, _, _⟩ := mkSpoilerBot_elim hb
  unfold LoopInv at hinv
  obtain ⟨hws, _, hkeys, _, _⟩ := hinv
  constructor
  · exact hkeys
  · intro hFkeys
    have hF : (day + month + year) ∈ b.winning_moves.keys.filter
        (fun x => initial_position ≤ x) :=
      Finset.mem_filter.mpr ⟨hFkeys, by omega⟩
    have hF2 : (day + month + year) ∈ b.winning_strategy := by
      rw [← hkeys]
      exact hF
    have hmem : (day + month + year) ∈
        Finset.Ico initial_position (day + month + year) := hws hF2
    obtain ⟨_, hlt⟩ := Finset.mem_Ico.mp hmem
    omega

/-- Witness for C4 (amended) at the inputs `(1, 1, 8, 1)`. -/
theorem winning_moves_keys_amended_witness :
    bot218.winning_moves.keys.filter (fun x => (1 : ℤ) ≤ x) =
      bot218.winning_strategy ∧
    ((1 : ℤ) + 1 + 8) ∉ bot218.winning_moves.keys :=
  winning_moves_keys_amended 1 1 8 1 bot218 rfl (by decide)

/-- C5: whenever `pick_smart_move` returns a delta, it is in
`[1, max_move]` and does not overshoot `final_position`; and at a position
outside `winning_strategy` it returns `None`. -/
theorem pick_smart_move_sound (day month year initial_position p delta : ℤ)
    (b : SpoilerBot)
    (hb : mkSpoilerBot day month year initial_position = some b) :
    (pick_smart_move b p = some delta →
      1 ≤ delta ∧ delta ≤ day + month ∧ p + delta ≤ day + month + year) ∧
    (p ∉ b.winning_strategy → pick_smart_move b p = none) := by
  obtain ⟨hinv, _, _, _⟩ := mkSpoilerBot_elim hb
  unfold LoopInv at hinv
  obtain ⟨_, _, _, hvb, _⟩ := hinv
  constructor
  · intro hd
    unfold pick_smart_move at hd
    split at hd
    next hmem =>
      cases hL : listMax ((b.winning_moves.get p).getD []) with
      | none =>
        rw [hL] at hd
        exact Option.noConfusion hd
      | some m =>
        rw [hL] at hd
        dsimp only at hd
        split at hd
        · exact Option.noConfusion hd
        next hne =>
          injection hd with hd
          subst hd
          have hm : m ∈ (b.winning_moves.get p).getD [] := listMax_mem hL
          have hm2 : m ∈ b.winning_moves.val p := getD_sub _ _ _ hm
          obtain ⟨q1, q2, q3⟩ := hvb p m hm2
          have q2b : m ≤ p + (day + month) := q2
          have q3b : m ≤ day + month + year := q3
          refine ⟨by omega, by omega, by omega⟩
    next hmem => exact Option.noConfusion hd
  · intro hmem
    unfold pick_smart_move
    rw [if_neg hmem]

/-- Witness for C5 at the inputs `(1, 1, 8, 1)`, position `8`, delta `2`. -/
theorem pick_smart_move_sound_witness :
    (pick_smart_move bot218 8 = some 2 →
      1 ≤ (2 : ℤ) ∧ (2 : ℤ) ≤ 1 + 1 ∧ (8 : ℤ) + 2 ≤ 1 + 1 + 8) ∧
    ((8 : ℤ) ∉ bot218.winning_strategy → pick_smart_move bot218 8 = none) :=
  pick_smart_move_sound 1 1 8 1 8 2 bot218 rfl
